import Mathlib

/-!
Shallow embedding of the `autoap` repository's domain-service slice:
the command normalizer, memo synchronizer and id allocators of
`src/app/services.py`, and the keyword-tree parser, subtree keyword
collector and tagged-record filters of `src/app/link_tree.py`, together
with the data model of `src/app/models.py`.

Python semantics conventions used throughout:
* Python `str` is modelled as Lean `String`; the relevant string methods
  (`strip`, `rstrip`, `lstrip`, `lower`, `split`, `splitlines`,
  `replace("\r", "")`) are re-implemented structurally over `List Char`
  so that every definition kernel-reduces on concrete input.  Whitespace
  is modelled as the ASCII whitespace characters recognised by Python
  (`' '`, `'\t'`, `'\n'`, `'\r'`, `'\x0b'`, `'\x0c'`); case folding is
  the per-character `Char.toLower` (faithful on ASCII data).
* Python `int` is `Int`, Python `dict` is an insertion-ordered
  association list, Python `set[str]` is `Finset String`.
* Mutation of an object field becomes explicit state passing: a function
  that mutates `bundle.memos` returns the updated bundle.
-/

/-- Python `str.isspace` on a single character, restricted to the ASCII
whitespace characters: space, tab, newline, carriage return, vertical
tab and form feed. -/
def isPyWs (c : Char) : Bool :=
  c = ' ' || c = '\t' || c = '\n' || c = '\r' || c = '\x0b' || c = '\x0c'

/-- Python `str.lstrip()` on the character list: drop leading whitespace. -/
def lstripList (l : List Char) : List Char :=
  l.dropWhile isPyWs

/-- Python `str.rstrip()` on the character list: drop trailing whitespace. -/
def rstripList (l : List Char) : List Char :=
  (l.reverse.dropWhile isPyWs).reverse

/-- Python `str.strip()` on the character list: drop whitespace at both ends. -/
def stripList (l : List Char) : List Char :=
  rstripList (lstripList l)

/-- Python `str.lstrip()`. -/
def pyLStrip (s : String) : String :=
  ⟨lstripList s.toList⟩

/-- Python `str.rstrip()`. -/
def pyRStrip (s : String) : String :=
  ⟨rstripList s.toList⟩

/-- Python `str.strip()`. -/
def pyStrip (s : String) : String :=
  ⟨stripList s.toList⟩

/-- Python `str.lower()`, folding each character with `Char.toLower`. -/
def pyLower (s : String) : String :=
  ⟨s.toList.map Char.toLower⟩

/-- Python `s.replace("\r", "")`: replacing the one-character pattern
`"\r"` by the empty string removes every carriage return. -/
def pyRemoveCR (s : String) : String :=
  ⟨s.toList.filter (fun c => c ≠ '\r')⟩

/-- Python `str.split(sep)` for a one-character separator, on character
lists.  `[] ↦ [[]]`, matching `"".split(sep) == [""]`. -/
def splitOnChar (c : Char) : List Char → List (List Char)
  | [] => [[]]
  | x :: xs =>
    match splitOnChar c xs with
    | [] => [[]]
    | cur :: rest => if x = c then [] :: cur :: rest else (x :: cur) :: rest

/-- Helper for `pySplitlines`: `cur` holds the characters of the current
line in reverse. -/
def splitlinesAux : List Char → List Char → List (List Char)
  | [], cur => if cur.isEmpty then [] else [cur.reverse]
  | '\r' :: '\n' :: rest, cur => cur.reverse :: splitlinesAux rest []
  | '\r' :: rest, cur => cur.reverse :: splitlinesAux rest []
  | '\n' :: rest, cur => cur.reverse :: splitlinesAux rest []
  | c :: rest, cur => splitlinesAux rest (c :: cur)

/-- Python `str.splitlines()` for the line boundaries `\n`, `\r\n` and
`\r` (the exotic Unicode boundaries Python also recognises do not occur
in this repository's data).  A trailing line terminator does not produce
a trailing empty line. -/
def pySplitlines (s : String) : List String :=
  (splitlinesAux s.toList []).map fun l => ⟨l⟩

/-- CommandMemo of `src/app/models.py`.  The dataclass fields
`action_id`, `command_order`, `command_text`, `memo_text` and
`onenote_link` are declared there.

Modelled from the spec: the `description` field.  The copy of
`models.py` under `src/` is truncated (it also lacks the `LinkEntry` and
`DatasetState` classes that `services.py` and `main.py` import from it,
so the module as given could not even be imported); `sync_memos` reads
`memo.description` and passes `description=` to the constructor, and
`main.py` assigns `memo.description`.  Spec §6 describes the annotation
record's payload of note fields, and §4.2/C2 name them `(description,
memo text, onenote link)`; the field is therefore modelled as a string
field defaulting to the empty string like its siblings. -/
structure CommandMemo where
  action_id : Int
  command_order : Int
  command_text : String := ""
  description : String := ""
  memo_text : String := ""
  onenote_link : String := ""
deriving DecidableEq, Repr

/-- ActionBundle of `src/app/models.py`.  `updated_date` (a `date`) is
modelled as an opaque natural number; it is never consulted by the
functions under study. -/
structure ActionBundle where
  id : Option Int := none
  part : String := ""
  bundle_name : String := ""
  command_text : String := ""
  description : String := ""
  keywords : String := ""
  expected_outcome : String := ""
  interpretation : String := ""
  updated_date : Nat := 0
  todo : String := ""
  memos : List CommandMemo := []
deriving DecidableEq, Repr

/-- LinkEntry.

Modelled from the spec: the `LinkEntry` dataclass is imported from
`.models` by `services.py` and `main.py` but missing from the truncated
`src/app/models.py`.  Spec §3 describes it as identity, optional
reference to a bundle id and command position, URL, description and tag
text; the field names follow the constructor call in `main.py`
(`id`, `bundle_id`, `command_order`, `url`, `description`, `tags`). -/
structure LinkEntry where
  id : Int
  bundle_id : Option Int := none
  command_order : Option Int := none
  url : String := ""
  description : String := ""
  tags : String := ""
deriving DecidableEq, Repr

/-- normalize_commands of `src/app/services.py`:
`if not command_text: return []`, then strip each line of
`command_text.replace("\r", "").split("\n")` and keep the non-empty
ones. -/
def normalize_commands (command_text : String) : List String :=
  if command_text = "" then []
  else
    let raw_lines :=
      (splitOnChar '\n' (pyRemoveCR command_text).toList).map fun l => pyStrip ⟨l⟩
    raw_lines.filter fun line => line ≠ ""

/-- Python `sorted(bundle.memos, key=lambda memo: memo.command_order)`:
stable insertion of one memo into an already sorted list, placing the
new element before the first strictly greater key. -/
def insertMemo (m : CommandMemo) : List CommandMemo → List CommandMemo
  | [] => [m]
  | x :: xs =>
    if m.command_order ≤ x.command_order then m :: x :: xs else x :: insertMemo m xs

/-- Stable sort by `command_order`, modelling Python's stable `sorted`. -/
def sortMemos : List CommandMemo → List CommandMemo
  | [] => []
  | m :: ms => insertMemo m (sortMemos ms)

/-- The dict comprehension of `sync_memos` followed by `.get(key)`:
entries are inserted in list order with later keys overwriting earlier
ones, so a lookup returns the payload of the LAST list element carrying
the key, or `none`. -/
def memoLookupAux (key : Int × String) :
    Option (String × String × String) → List CommandMemo →
    Option (String × String × String)
  | acc, [] => acc
  | acc, m :: ms =>
    memoLookupAux key
      (if (m.command_order, m.command_text) = key then
        some (m.description, m.memo_text, m.onenote_link)
      else acc) ms

/-- `memo_data.get((idx, command))` of `sync_memos`. -/
def memoLookup (existing : List CommandMemo) (key : Int × String) :
    Option (String × String × String) :=
  memoLookupAux key none existing

/-- The construction loop of `sync_memos`:
`for idx, command in enumerate(commands, start=1)` builds one
`CommandMemo` per command, carrying the looked-up payload or empty
strings.  `idx` is the 1-based position of the first element of
`commands`. -/
def buildNewMemos (existing : List CommandMemo) (actionId : Int) :
    Int → List String → List CommandMemo
  | _, [] => []
  | idx, command :: rest =>
    let payload := (memoLookup existing (idx, command)).getD ("", "", "")
    { action_id := actionId
      command_order := idx
      command_text := command
      description := payload.1
      memo_text := payload.2.1
      onenote_link := payload.2.2 } :: buildNewMemos existing actionId (idx + 1) rest

/-- sync_memos of `src/app/services.py`.  The Python function mutates
`bundle.memos`; the embedding returns the updated bundle.
`bundle.id or 0` coincides with `Option.getD` because `0` is the only
falsy `int`. -/
def sync_memos (bundle : ActionBundle) (command_text : String) : ActionBundle :=
  let commands := normalize_commands command_text
  let existing := sortMemos bundle.memos
  let new_memos := buildNewMemos existing (bundle.id.getD 0) 1 commands
  { bundle with memos := new_memos }

/-- Python `max` over a non-empty iterable, as a left fold. -/
def dictMaxKey : List Int → Option Int
  | [] => none
  | k :: ks => some (ks.foldl max k)

/-- get_next_bundle_id of `src/app/services.py`: `1` on the empty dict,
else `max(bundles.keys()) + 1`.  The Python dict is modelled as an
insertion-ordered association list. -/
def get_next_bundle_id (bundles : List (Int × ActionBundle)) : Int :=
  match dictMaxKey (bundles.map Prod.fst) with
  | none => 1
  | some m => m + 1

/-- get_next_link_id of `src/app/services.py`: identical to
`get_next_bundle_id` but over the link dict. -/
def get_next_link_id (links : List (Int × LinkEntry)) : Int :=
  match dictMaxKey (links.map Prod.fst) with
  | none => 1
  | some m => m + 1

/-!
Keyword-tree parser of `src/app/link_tree.py`.

The Python `TreeNode` objects form a graph with mutable parent/child
references; `parse_tree_file` allocates nodes and mutates them through
`add_child`.  The object heap is embedded as an arena: a list of `PNode`
records addressed by allocation index, a node reference being its index.
The parser state carries the arena together with the ancestor stack of
the algorithm; the Python stack's top (`stack[-1]`) is the HEAD of the
Lean list, i.e. the Lean stack is the reversed Python list. -/

/-- Arena image of a Python `TreeNode` object: `keyword`, `level` and
the `children` / `parent` references of `src/app/link_tree.py`, with
object references replaced by arena indices. -/
structure PNode where
  keyword : String
  level : Int
  children : List Nat := []
  parent : Option Nat := none
deriving DecidableEq, Repr

/-- Arena read with a dummy default (all reads in the development are at
valid indices). -/
def getNodeD (nodes : List PNode) (i : Nat) : PNode :=
  nodes.getD i { keyword := "", level := 0 }

/-- Parser state of `parse_tree_file`: the object arena and the
ancestor stack (top first). -/
structure ParseState where
  nodes : List PNode
  stack : List Nat
deriving DecidableEq, Repr

/-- The pop loop of `parse_tree_file`:
`while len(stack) > 1 and stack[-1].level >= level: stack.pop()`. -/
def popWhile (nodes : List PNode) (level : Int) : List Nat → List Nat
  | [] => []
  | [i] => [i]
  | i :: j :: rest =>
    if level ≤ (getNodeD nodes i).level then popWhile nodes level (j :: rest)
    else i :: j :: rest

/-- `TreeNode.add_child` of `src/app/link_tree.py`, arena form: append
`childIdx` to the children of node `i` (the child's `parent` reference
is set at allocation, giving the same final state as the Python order of
assignments). -/
def addChildAt (nodes : List PNode) (i : Nat) (childIdx : Nat) : List PNode :=
  nodes.set i
    (let p := getNodeD nodes i
     { p with children := p.children ++ [childIdx] })

/-- Leading-whitespace count of a line:
`len(line) - len(line.lstrip())`. -/
def leadingWs (line : String) : Nat :=
  line.toList.length - (lstripList line.toList).length

/-- Depth of a line: `leading_spaces // 4`. -/
def lineLevel (line : String) : Nat :=
  leadingWs line / 4

/-- One iteration of the `for line in lines` loop of
`parse_tree_file`: skip blank lines (`line.rstrip()` empty), otherwise
compute level and keyword, pop to the proper parent, allocate the node,
attach and push it. -/
def parseStep (s : ParseState) (line : String) : ParseState :=
  let stripped := pyRStrip line
  if stripped = "" then s
  else
    let level : Int := Int.ofNat (lineLevel line)
    let keyword := pyStrip stripped
    let stack1 := popWhile s.nodes level s.stack
    let parentIdx := stack1.headD 0
    let newIdx := s.nodes.length
    let child : PNode := { keyword := keyword, level := level, parent := some parentIdx }
    { nodes := addChildAt s.nodes parentIdx newIdx ++ [child]
      stack := newIdx :: stack1 }

/-- Initial parser state: the synthetic root
`TreeNode("ROOT", level=-1)` at index `0`, alone on the stack. -/
def initParseState : ParseState :=
  { nodes := [{ keyword := "ROOT", level := -1 }], stack := [0] }

/-- The loop of `parse_tree_file` over the already split lines. -/
def parseTreeLines (lines : List String) : ParseState :=
  lines.foldl parseStep initParseState

/-- parse_tree_file of `src/app/link_tree.py`.  The filesystem read is
an external concern; the argument is `none` when the file is missing
(`return None`) and `some text` with the file's content otherwise, the
content being split with `splitlines()`. -/
def parse_tree_file (content : Option String) : Option ParseState :=
  content.map fun text => parseTreeLines (pySplitlines text)

/-- build_keyword_tree of `src/app/link_tree.py`: the synthetic root's
children (as arena indices), or `[]` when the file is missing. -/
def build_keyword_tree (content : Option String) : List Nat :=
  match parse_tree_file content with
  | none => []
  | some s => (getNodeD s.nodes 0).children

/-- Pure recursive view of the `TreeNode` class for the traversal
methods: `keyword`, `level` and the ordered children.  The mutable
`parent` back-reference of the class is represented in the arena
embedding (`PNode`) and is not consulted by `get_all_keywords`. -/
inductive TreeNode where
  | node (keyword : String) (level : Int) (children : List TreeNode)

/-- Keyword label of a tree node. -/
def TreeNode.keyword : TreeNode → String
  | .node kw _ _ => kw

mutual

/-- TreeNode.get_all_keywords of `src/app/link_tree.py`: the node's own
keyword together with the recursively collected keywords of its
children, as a set. -/
def get_all_keywords : TreeNode → Finset String
  | .node kw _ children => insert kw (get_all_keywords_list children)

/-- The `for child in self.children: keywords.update(...)` loop of
`get_all_keywords`. -/
def get_all_keywords_list : List TreeNode → Finset String
  | [] => ∅
  | c :: cs => get_all_keywords c ∪ get_all_keywords_list cs

end

/-- TaggedRecord: one row of `tagged_database.csv` as produced by
`load_tagged_database` of `src/app/link_tree.py`, a dict with exactly
the keys `code`, `title`, `link`, `tag`. -/
structure TaggedRecord where
  code : String := ""
  title : String := ""
  link : String := ""
  tag : String := ""
deriving DecidableEq, Repr

/-- get_procedures_by_tag of `src/app/link_tree.py`: the loop appending
each entry whose `tag` is a member of the keyword set. -/
def get_procedures_by_tag (tagged_entries : List TaggedRecord)
    (keyword_set : Finset String) : List TaggedRecord :=
  tagged_entries.foldl
    (fun results entry => if entry.tag ∈ keyword_set then results ++ [entry] else results)
    []

/-- Helper for Python's substring test: does `needle` occur at the very
start of `hay`? -/
def startsWithList (needle hay : List Char) : Bool :=
  match needle, hay with
  | [], _ => true
  | _ :: _, [] => false
  | c :: cs, d :: ds => c = d && startsWithList cs ds

/-- Python `needle in hay` on strings: substring containment, scanning
every start position. -/
def containsSub (needle : List Char) : List Char → Bool
  | [] => startsWithList needle []
  | c :: tl => startsWithList needle (c :: tl) || containsSub needle tl

/-- search_procedures_by_title of `src/app/link_tree.py`:
`[]` on the empty query, otherwise the loop appending each entry whose
lower-cased title contains the lower-cased query as a substring
(Python `query_lower in title`). -/
def search_procedures_by_title (tagged_entries : List TaggedRecord)
    (query : String) : List TaggedRecord :=
  if query = "" then []
  else
    let query_lower := pyLower query
    tagged_entries.foldl
      (fun results entry =>
        if containsSub query_lower.toList (pyLower entry.title).toList then
          results ++ [entry]
        else results)
      []

/-!
Specification-side reformulations.  These follow the wording of the
spec, to be compared with the definitions translated from the source. -/

/-- Spec §4.1 wording: "normalize line endings, split on newline, trim
each line" — the per-line trimmed split of the text, with no special
case for the empty text. -/
def trimmedLines (text : String) : List String :=
  (splitOnChar '\n' (pyRemoveCR text).toList).map fun l => pyStrip ⟨l⟩

mutual

/-- Spec §4.5 wording for `collect_subtree_keywords`: the labels of all
nodes of the subtree, gathered by a plain preorder flattening. -/
def subtreeKeywordList : TreeNode → List String
  | .node kw _ children => kw :: subtreeKeywordListMany children

/-- Flattening of a forest for `subtreeKeywordList`. -/
def subtreeKeywordListMany : List TreeNode → List String
  | [] => []
  | c :: cs => subtreeKeywordList c ++ subtreeKeywordListMany cs

end

/-!
The structural invariant of the arena built by the indentation
parser. -/

/-- Mutual parent/child consistency plus strict level increase from
parent to child, at every valid arena index. -/
def ChildrenOk (nodes : List PNode) : Prop :=
  ∀ i, i < nodes.length → ∀ j ∈ (getNodeD nodes i).children,
    j < nodes.length ∧ (getNodeD nodes j).parent = some i ∧
      (getNodeD nodes i).level < (getNodeD nodes j).level

/-- The ancestor stack: non-empty, rooted at index `0`, in range, with
strictly increasing levels from bottom to top (top-first list, so
strictly decreasing along the list). -/
def StackOk (s : ParseState) : Prop :=
  s.stack ≠ [] ∧ s.stack.getLast? = some 0 ∧
  (∀ i ∈ s.stack, i < s.nodes.length) ∧
  s.stack.Pairwise
    (fun a b => (getNodeD s.nodes b).level < (getNodeD s.nodes a).level)

/-- The synthetic root sits at index `0` with level `-1` and no
parent. -/
def RootOk (nodes : List PNode) : Prop :=
  0 < nodes.length ∧ (getNodeD nodes 0).keyword = "ROOT" ∧
  (getNodeD nodes 0).level = -1 ∧ (getNodeD nodes 0).parent = none

/-- Full parser-state invariant. -/
def ParseInv (s : ParseState) : Prop :=
  RootOk s.nodes ∧ ChildrenOk s.nodes ∧ StackOk s

/-!
Concrete sanity checks of the embedding, matching the spec's worked
examples. -/

example : normalize_commands "  a \n\r\n b\n\n" = ["a", "b"] := by decide
example : normalize_commands "" = [] := by decide

example :
    (sync_memos { id := some 1, memos := [] } "a\nb").memos =
      [{ action_id := 1, command_order := 1, command_text := "a" },
       { action_id := 1, command_order := 2, command_text := "b" }] := by decide

example :
    (sync_memos
      { id := some 1,
        memos := [{ action_id := 1, command_order := 2, command_text := "b",
                    memo_text := "keep" }] }
      "a\nb\nc").memos.map (fun m => m.memo_text) = ["", "keep", ""] := by decide

example :
    (sync_memos
      { id := some 1,
        memos := [{ action_id := 1, command_order := 2, command_text := "b",
                    memo_text := "keep" }] }
      "x\na\nb").memos.map (fun m => m.memo_text) = ["", "", ""] := by decide

example : get_next_bundle_id [(3, {}), (7, {})] = 8 := by decide

example :
    (parseTreeLines ["A", "    B", "        C", "    D"]).nodes.map PNode.keyword =
      ["ROOT", "A", "B", "C", "D"] := by decide

example :
    (parseTreeLines ["A", "    B", "        C", "    D"]).nodes.map PNode.children =
      [[1], [2, 4], [3], [], []] := by decide

example : build_keyword_tree (some "A\n    B\n        C\n    D\n") = [1] := by decide

example :
    get_all_keywords (.node "A" 0 [.node "B" 1 []]) = {"A", "B"} := by decide

example :
    get_procedures_by_tag [{ tag := "A" }, { tag := "Z" }] {"A", "B"} =
      [{ tag := "A" }] := by decide

example :
    search_procedures_by_title [{ title := "Hello" }] "ELL" = [{ title := "Hello" }] := by
  decide

example : search_procedures_by_title [{ title := "Hello" }] "" = [] := by decide

/-!
Lemmas about the indentation parser's pop loop and blank-line
handling. -/

theorem popWhile_eq_dropWhile (nodes : List PNode) (lvl : Int) :
    ∀ st : List Nat,
      (∀ i, st.getLast? = some i → (getNodeD nodes i).level < lvl) →
      popWhile nodes lvl st =
        st.dropWhile (fun i => decide (lvl ≤ (getNodeD nodes i).level)) := by
  intro st
  induction st with
  | nil => intro _; rfl
  | cons i rest ih =>
    intro h
    cases rest with
    | nil =>
      have hi : (getNodeD nodes i).level < lvl := h i rfl
      rw [popWhile, List.dropWhile_cons, if_neg (by simpa using not_le.mpr hi)]
    | cons j rest' =>
      rw [popWhile, List.dropWhile_cons]
      by_cases hcond : lvl ≤ (getNodeD nodes i).level
      · rw [if_pos hcond, if_pos (by simpa using hcond)]
        refine ih ?_
        intro x hx
        refine h x ?_
        rw [List.getLast?_cons_cons]
        exact hx
      · rw [if_neg hcond, if_neg (by simpa using hcond)]

theorem popWhile_head_lt (nodes : List PNode) (lvl : Int) (st : List Nat)
    (h : ∀ i, st.getLast? = some i → (getNodeD nodes i).level < lvl)
    (hne : st ≠ []) :
    ∃ hd tl, popWhile nodes lvl st = hd :: tl ∧ (getNodeD nodes hd).level < lvl := by
  induction st with
  | nil => exact absurd rfl hne
  | cons i rest ih =>
    cases rest with
    | nil =>
      exact ⟨i, [], by rw [popWhile], h i rfl⟩
    | cons j rest' =>
      by_cases hcond : lvl ≤ (getNodeD nodes i).level
      · have h' : ∀ x, (j :: rest').getLast? = some x → (getNodeD nodes x).level < lvl := by
          intro x hx
          refine h x ?_
          rw [List.getLast?_cons_cons]
          exact hx
        obtain ⟨hd, tl, heq, hlt⟩ := ih h' (by simp)
        refine ⟨hd, tl, ?_, hlt⟩
        rw [popWhile, if_pos hcond]
        exact heq
      · exact ⟨i, j :: rest', by rw [popWhile, if_neg hcond], not_le.mp hcond⟩

theorem popWhile_suffix (nodes : List PNode) (lvl : Int) :
    ∀ st : List Nat, (popWhile nodes lvl st).IsSuffix st := by
  intro st
  induction st with
  | nil => exact List.suffix_refl _
  | cons i rest ih =>
    cases rest with
    | nil => exact List.suffix_refl _
    | cons j rest' =>
      rw [popWhile]
      by_cases hcond : lvl ≤ (getNodeD nodes i).level
      · rw [if_pos hcond]
        exact ih.trans (List.suffix_cons i (j :: rest'))
      · rw [if_neg hcond]

theorem parseStep_blank (s : ParseState) (line : String) (h : pyRStrip line = "") :
    parseStep s line = s := by
  rw [parseStep]
  simp only [h]
  rfl

theorem foldl_parseStep_filter_blank :
    ∀ (lines : List String) (s : ParseState),
      lines.foldl parseStep s =
        (lines.filter (fun l => pyRStrip l ≠ "")).foldl parseStep s := by
  intro lines
  induction lines with
  | nil => intro s; rfl
  | cons l rest ih =>
    intro s
    rw [List.filter_cons]
    by_cases h : pyRStrip l = ""
    · rw [if_neg (by simpa using h), List.foldl_cons, parseStep_blank s l h, ih]
    · rw [if_pos (by simpa using h), List.foldl_cons, List.foldl_cons, ih]

/-!
Generic helper lemmas. -/

/-- The append-one-at-a-time accumulation loops of `link_tree.py` are
filters. -/
theorem foldl_append_if_eq_filter {α : Type} (q : α → Bool) :
    ∀ (l acc : List α),
      l.foldl (fun r e => if q e then r ++ [e] else r) acc = acc ++ l.filter q := by
  intro l
  induction l with
  | nil => intro acc; simp
  | cons e l ih =>
    intro acc
    by_cases h : q e
    · simp [List.foldl_cons, h, ih, List.filter_cons]
    · simp only [Bool.not_eq_true] at h
      simp [List.foldl_cons, h, ih, List.filter_cons]

theorem le_foldl_max (k : Int) (ks : List Int) : k ≤ ks.foldl max k := by
  induction ks generalizing k with
  | nil => exact le_refl k
  | cons c cs ih => exact le_trans (le_max_left k c) (ih (max k c))

theorem mem_le_foldl_max (k x : Int) (ks : List Int) (hx : x ∈ ks) :
    x ≤ ks.foldl max k := by
  induction ks generalizing k with
  | nil => cases hx
  | cons c cs ih =>
    rcases List.mem_cons.mp hx with h | h
    · subst h
      exact le_trans (le_max_right k x) (le_foldl_max (max k x) cs)
    · exact ih (max k c) h

theorem foldl_max_mem (k : Int) (ks : List Int) : ks.foldl max k ∈ k :: ks := by
  induction ks generalizing k with
  | nil => simp
  | cons c cs ih =>
    rw [List.foldl_cons]
    rcases max_choice k c with hm | hm <;> rw [hm]
    · rcases List.mem_cons.mp (ih k) with h | h
      · exact List.mem_cons.mpr (Or.inl h)
      · exact List.mem_cons.mpr (Or.inr (List.mem_cons.mpr (Or.inr h)))
    · rcases List.mem_cons.mp (ih c) with h | h
      · exact List.mem_cons.mpr (Or.inr (List.mem_cons.mpr (Or.inl h)))
      · exact List.mem_cons.mpr (Or.inr (List.mem_cons.mpr (Or.inr h)))

/-- Behaviour of `dictMaxKey`, the model of Python `max` over dict
keys: `none` exactly on the empty list, otherwise a maximum member. -/
theorem dictMaxKey_spec (ks : List Int) :
    (ks = [] → dictMaxKey ks = none) ∧
    (ks ≠ [] → ∃ m, dictMaxKey ks = some m ∧ m ∈ ks ∧ ∀ x ∈ ks, x ≤ m) := by
  constructor
  · intro h; subst h; rfl
  · intro h
    match ks, h with
    | k :: ks, _ =>
      refine ⟨ks.foldl max k, rfl, foldl_max_mem k ks, ?_⟩
      intro x hx
      rcases List.mem_cons.mp hx with h | h
      · subst h; exact le_foldl_max x ks
      · exact mem_le_foldl_max k x ks h

/-- C4: `normalize_commands` returns exactly the non-empty lines of the
input after line-ending normalization and per-line trimming, in
original order; blank or whitespace-only lines never appear in the
output; the empty input yields the empty sequence.  (The function is
total, so it never fails.) -/
theorem normalize_commands_correct (text : String) :
    normalize_commands text = (trimmedLines text).filter (fun line => line ≠ "") ∧
    (∀ line ∈ normalize_commands text, line ≠ "") ∧
    normalize_commands "" = [] := by
  refine ⟨?_, ?_, by decide⟩
  · by_cases h : text = ""
    · subst h; decide
    · rw [normalize_commands, if_neg h]; rfl
  · intro line hline
    by_cases h : text = ""
    · subst h; cases hline
    · rw [normalize_commands, if_neg h] at hline
      simpa using (List.mem_filter.mp hline).2

theorem normalize_commands_correct_witness :
    normalize_commands " a \n\nb " = ["a", "b"] ∧ ("a" : String) ≠ "" := by
  refine ⟨by decide, ?_⟩
  exact (normalize_commands_correct " a \n\nb ").2.1 "a" (by decide)

/-- C9: both id allocators return `1` on the empty mapping and
`max(existing ids) + 1` otherwise (in particular keys `{3, 7}` yield
`8`), and allocation is a total function. -/
theorem get_next_id_correct (bundles : List (Int × ActionBundle))
    (links : List (Int × LinkEntry)) :
    (bundles = [] → get_next_bundle_id bundles = 1) ∧
    (bundles ≠ [] →
      ∃ m, m ∈ bundles.map Prod.fst ∧ (∀ k ∈ bundles.map Prod.fst, k ≤ m) ∧
        get_next_bundle_id bundles = m + 1) ∧
    (links = [] → get_next_link_id links = 1) ∧
    (links ≠ [] →
      ∃ m, m ∈ links.map Prod.fst ∧ (∀ k ∈ links.map Prod.fst, k ≤ m) ∧
        get_next_link_id links = m + 1) ∧
    get_next_bundle_id [(3, {}), (7, {})] = 8 := by
  refine ⟨?_, ?_, ?_, ?_, by decide⟩
  · intro h; subst h; rfl
  · intro h
    have h' : bundles.map Prod.fst ≠ [] := by simpa using h
    obtain ⟨m, hkey, hmem, hle⟩ := (dictMaxKey_spec (bundles.map Prod.fst)).2 h'
    exact ⟨m, hmem, hle, by rw [get_next_bundle_id, hkey]⟩
  · intro h; subst h; rfl
  · intro h
    have h' : links.map Prod.fst ≠ [] := by simpa using h
    obtain ⟨m, hkey, hmem, hle⟩ := (dictMaxKey_spec (links.map Prod.fst)).2 h'
    exact ⟨m, hmem, hle, by rw [get_next_link_id, hkey]⟩

theorem get_next_id_correct_witness :
    get_next_bundle_id [] = 1 ∧ get_next_link_id [] = 1 := by
  exact ⟨(get_next_id_correct [] []).1 rfl, (get_next_id_correct [] []).2.2.1 rfl⟩

/-- Propositional version of `foldl_append_if_eq_filter`, matching the
`if`-over-a-decidable-proposition shape of the source loops. -/
theorem foldl_append_ite_eq_filter {α : Type} (p : α → Prop) [DecidablePred p] :
    ∀ (l acc : List α),
      l.foldl (fun r e => if p e then r ++ [e] else r) acc =
        acc ++ l.filter (fun e => decide (p e)) := by
  intro l
  induction l with
  | nil => intro acc; simp
  | cons e l ih =>
    intro acc
    by_cases h : p e
    · simp [List.foldl_cons, h, ih, List.filter_cons]
    · simp [List.foldl_cons, h, ih, List.filter_cons]

theorem startsWithList_iff (needle : List Char) :
    ∀ hay : List Char,
      startsWithList needle hay = true ↔ ∃ post, hay = needle ++ post := by
  induction needle with
  | nil => intro hay; simp [startsWithList]
  | cons c cs ih =>
    intro hay
    cases hay with
    | nil =>
      simp [startsWithList]
    | cons d ds =>
      rw [startsWithList]
      simp only [Bool.and_eq_true, decide_eq_true_eq, ih ds, List.cons_append,
        List.cons.injEq]
      constructor
      · rintro ⟨hcd, post, hpost⟩
        exact ⟨post, hcd.symm, hpost⟩
      · rintro ⟨post, hdc, hpost⟩
        exact ⟨hdc.symm, post, hpost⟩

theorem containsSub_iff (needle : List Char) :
    ∀ hay : List Char,
      containsSub needle hay = true ↔ ∃ pre post, hay = pre ++ needle ++ post := by
  intro hay
  induction hay with
  | nil =>
    rw [containsSub, startsWithList_iff]
    constructor
    · rintro ⟨post, hpost⟩
      exact ⟨[], post, by simpa using hpost⟩
    · rintro ⟨pre, post, hsplit⟩
      rcases List.append_eq_nil.mp hsplit.symm with ⟨h1, hpost⟩
      rcases List.append_eq_nil.mp h1 with ⟨hpre, hn⟩
      exact ⟨post, by simp [hn, hpost]⟩
  | cons c tl ih =>
    rw [containsSub, Bool.or_eq_true, startsWithList_iff, ih]
    constructor
    · rintro (⟨post, hpost⟩ | ⟨pre, post, hsplit⟩)
      · exact ⟨[], post, by simpa using hpost⟩
      · exact ⟨c :: pre, post, by simp [hsplit]⟩
    · rintro ⟨pre, post, hsplit⟩
      cases pre with
      | nil => exact Or.inl ⟨post, by simpa using hsplit⟩
      | cons p ps =>
        simp only [List.cons_append, List.cons.injEq] at hsplit
        exact Or.inr ⟨ps, post, hsplit.2⟩

/-- C8: `search_procedures_by_title` returns `[]` on the empty query
and on the empty record list, and otherwise filters the records, in
input order, by case-insensitive substring containment of the query in
the title; the final conjunct gives the substring semantics of the
filtering predicate. -/
theorem search_procedures_by_title_correct (entries : List TaggedRecord)
    (query : String) :
    search_procedures_by_title entries "" = [] ∧
    search_procedures_by_title [] query = [] ∧
    (query ≠ "" →
      search_procedures_by_title entries query =
        entries.filter
          (fun e => containsSub (pyLower query).toList (pyLower e.title).toList)) ∧
    (∀ needle hay : List Char,
      containsSub needle hay = true ↔ ∃ pre post, hay = pre ++ needle ++ post) := by
  refine ⟨rfl, ?_, ?_, containsSub_iff⟩
  · rw [search_procedures_by_title]
    split <;> rfl
  · intro hq
    rw [search_procedures_by_title, if_neg hq]
    have h := foldl_append_if_eq_filter
      (fun e => containsSub (pyLower query).toList (pyLower e.title).toList) entries []
    simpa using h

theorem search_procedures_by_title_correct_witness :
    search_procedures_by_title [{ title := "Hello" }] "ELL" = [{ title := "Hello" }] := by
  have h := (search_procedures_by_title_correct [{ title := "Hello" }] "ELL").2.2.1
    (by decide)
  exact h.trans (by decide)

mutual

theorem get_all_keywords_eq_subtree (t : TreeNode) :
    get_all_keywords t = (subtreeKeywordList t).toFinset :=
  match t with
  | .node kw lvl children => by
    rw [get_all_keywords, subtreeKeywordList, List.toFinset_cons,
      get_all_keywords_list_eq_subtree children]

theorem get_all_keywords_list_eq_subtree (ts : List TreeNode) :
    get_all_keywords_list ts = (subtreeKeywordListMany ts).toFinset :=
  match ts with
  | [] => by rw [get_all_keywords_list, subtreeKeywordListMany, List.toFinset_nil]
  | c :: cs => by
    rw [get_all_keywords_list, subtreeKeywordListMany, List.toFinset_append,
      get_all_keywords_eq_subtree c, get_all_keywords_list_eq_subtree cs]

end

/-- C7: `get_all_keywords` collects exactly the keywords of the node
and all of its descendants (the keyword set of the preorder flattening
of the subtree), and `get_procedures_by_tag` is the order-preserving
filter by tag membership; both spec examples evaluate as stated. -/
theorem keywords_and_tag_filter_correct (t : TreeNode)
    (entries : List TaggedRecord) (ks : Finset String) :
    get_all_keywords t = (subtreeKeywordList t).toFinset ∧
    get_procedures_by_tag entries ks =
      entries.filter (fun e => decide (e.tag ∈ ks)) ∧
    get_all_keywords (.node "A" 0 [.node "B" 1 []]) = {"A", "B"} ∧
    get_procedures_by_tag [{ tag := "A" }, { tag := "Z" }] {"A", "B"} =
      [{ tag := "A" }] := by
  refine ⟨get_all_keywords_eq_subtree t, ?_, by decide, by decide⟩
  have h := foldl_append_ite_eq_filter (fun e : TaggedRecord => e.tag ∈ ks) entries []
  simpa using h

/-!
List.getD helper lemmas for arena reasoning. -/

theorem getD_append_left {α : Type} (d : α) :
    ∀ (l₁ l₂ : List α) (k : Nat), k < l₁.length → (l₁ ++ l₂).getD k d = l₁.getD k d := by
  intro l₁
  induction l₁ with
  | nil => intro l₂ k hk; cases hk
  | cons a t ih =>
    intro l₂ k hk
    cases k with
    | zero => rfl
    | succ k => exact ih l₂ k (Nat.lt_of_succ_lt_succ hk)

theorem getD_append_last {α : Type} (d : α) :
    ∀ (l₁ : List α) (x : α), (l₁ ++ [x]).getD l₁.length d = x := by
  intro l₁
  induction l₁ with
  | nil => intro x; rfl
  | cons a t ih => intro x; exact ih x

theorem getD_set_self {α : Type} (d : α) :
    ∀ (l : List α) (i : Nat) (v : α), i < l.length → (l.set i v).getD i d = v := by
  intro l
  induction l with
  | nil => intro i v hi; cases hi
  | cons a t ih =>
    intro i v hi
    cases i with
    | zero => rfl
    | succ i => exact ih i v (Nat.lt_of_succ_lt_succ hi)

theorem getD_set_ne {α : Type} (d : α) :
    ∀ (l : List α) (i : Nat) (v : α) (k : Nat), k ≠ i → (l.set i v).getD k d = l.getD k d := by
  intro l
  induction l with
  | nil => intro i v k _; rfl
  | cons a t ih =>
    intro i v k hk
    cases i with
    | zero =>
      cases k with
      | zero => exact absurd rfl hk
      | succ k => rfl
    | succ i =>
      cases k with
      | zero => rfl
      | succ k => exact ih i v k (fun h => hk (congrArg Nat.succ h))

theorem getLast?_append_right {α : Type} (l₂ : List α) (h : l₂ ≠ []) :
    ∀ l₁ : List α, (l₁ ++ l₂).getLast? = l₂.getLast? := by
  intro l₁
  induction l₁ with
  | nil => rfl
  | cons a t ih =>
    rw [List.cons_append]
    cases h' : t ++ l₂ with
    | nil => exact absurd (List.append_eq_nil.mp h').2 h
    | cons b u =>
      rw [h'] at ih
      rw [List.getLast?_cons_cons]
      exact ih

theorem getNodeD_update_at {nodes : List PNode} {p : Nat} (n : Nat) (c : PNode)
    (hp : p < nodes.length) :
    getNodeD (addChildAt nodes p n ++ [c]) p =
      { getNodeD nodes p with children := (getNodeD nodes p).children ++ [n] } := by
  rw [getNodeD, addChildAt]
  rw [getD_append_left _ _ _ p (by rw [List.length_set]; exact hp)]
  exact getD_set_self _ nodes p _ hp

theorem getNodeD_update_ne {nodes : List PNode} {p k : Nat} (n : Nat) (c : PNode)
    (hk : k < nodes.length) (hkp : k ≠ p) :
    getNodeD (addChildAt nodes p n ++ [c]) k = getNodeD nodes k := by
  rw [getNodeD, addChildAt]
  rw [getD_append_left _ _ _ k (by rw [List.length_set]; exact hk)]
  exact getD_set_ne _ nodes p _ k hkp

theorem getNodeD_update_new {nodes : List PNode} {p : Nat} (n : Nat) (c : PNode) :
    getNodeD (addChildAt nodes p n ++ [c]) nodes.length = c := by
  rw [getNodeD, addChildAt]
  have hlen : (nodes.set p
      (let q := getNodeD nodes p
       { q with children := q.children ++ [n] })).length = nodes.length :=
    List.length_set nodes p _
  rw [← hlen, getD_append_last]

theorem getNodeD_update_fields {nodes : List PNode} {p k : Nat} (n : Nat) (c : PNode)
    (hp : p < nodes.length) (hk : k < nodes.length) :
    (getNodeD (addChildAt nodes p n ++ [c]) k).parent = (getNodeD nodes k).parent ∧
    (getNodeD (addChildAt nodes p n ++ [c]) k).level = (getNodeD nodes k).level ∧
    (getNodeD (addChildAt nodes p n ++ [c]) k).keyword = (getNodeD nodes k).keyword := by
  by_cases hkp : k = p
  · subst hkp
    rw [getNodeD_update_at n c hp]
    exact ⟨rfl, rfl, rfl⟩
  · rw [getNodeD_update_ne n c hk hkp]
    exact ⟨rfl, rfl, rfl⟩

theorem addChildAt_append_length (nodes : List PNode) (p n : Nat) (c : PNode) :
    (addChildAt nodes p n ++ [c]).length = nodes.length + 1 := by
  rw [List.length_append, addChildAt, List.length_set]
  rfl

/-- Unfolding of `parseStep` on a non-blank line. -/
theorem parseStep_eq (s : ParseState) (line : String) (h : ¬pyRStrip line = "") :
    parseStep s line =
      { nodes :=
          addChildAt s.nodes
            ((popWhile s.nodes (Int.ofNat (lineLevel line)) s.stack).headD 0)
            s.nodes.length ++
          [{ keyword := pyStrip (pyRStrip line), level := Int.ofNat (lineLevel line),
             children := [],
             parent :=
               some ((popWhile s.nodes (Int.ofNat (lineLevel line)) s.stack).headD 0) }],
        stack :=
          s.nodes.length :: popWhile s.nodes (Int.ofNat (lineLevel line)) s.stack } := by
  simp only [parseStep]
  rw [if_neg h]

theorem parseStep_inv (s : ParseState) (line : String) (hinv : ParseInv s) :
    ParseInv (parseStep s line) := by
  by_cases hblank : pyRStrip line = ""
  · rw [parseStep_blank s line hblank]
    exact hinv
  · rw [parseStep_eq s line hblank]
    obtain ⟨hroot, hchild, hstack⟩ := hinv
    obtain ⟨hne, hlast, hmemall, hpair⟩ := hstack
    obtain ⟨hrootlen, hrootkw, hrootlvl, hrootpar⟩ := hroot
    have hlvl0 : (0 : Int) ≤ Int.ofNat (lineLevel line) := Int.ofNat_nonneg _
    have hlastlt : ∀ i, s.stack.getLast? = some i →
        (getNodeD s.nodes i).level < Int.ofNat (lineLevel line) := by
      intro i hi
      rw [hlast] at hi
      cases hi
      rw [hrootlvl]
      omega
    obtain ⟨hd, tl, hsteq, hhdlt⟩ :=
      popWhile_head_lt s.nodes (Int.ofNat (lineLevel line)) s.stack hlastlt hne
    have hsuff := popWhile_suffix s.nodes (Int.ofNat (lineLevel line)) s.stack
    have hsub : ∀ i ∈ popWhile s.nodes (Int.ofNat (lineLevel line)) s.stack,
        i ∈ s.stack := fun i hi => hsuff.sublist.subset hi
    have hheadD :
        (popWhile s.nodes (Int.ofNat (lineLevel line)) s.stack).headD 0 = hd := by
      rw [hsteq]
      rfl
    have hp_lt : hd < s.nodes.length :=
      hmemall hd (hsub hd (by rw [hsteq]; exact List.mem_cons_self hd tl))
    rw [hheadD, hsteq]
    refine ⟨⟨?_, ?_, ?_, ?_⟩, ?_, ?_, ?_, ?_, ?_⟩
    · rw [addChildAt_append_length]
      omega
    · rw [(getNodeD_update_fields s.nodes.length _ hp_lt hrootlen).2.2]
      exact hrootkw
    · rw [(getNodeD_update_fields s.nodes.length _ hp_lt hrootlen).2.1]
      exact hrootlvl
    · rw [(getNodeD_update_fields s.nodes.length _ hp_lt hrootlen).1]
      exact hrootpar
    · -- ChildrenOk for the extended arena
      intro i hi j hj
      rw [addChildAt_append_length] at hi
      by_cases hin : i = s.nodes.length
      · subst hin
        rw [getNodeD_update_new] at hj
        cases hj
      · have hi' : i < s.nodes.length := by omega
        by_cases hip : i = hd
        · subst hip
          rw [getNodeD_update_at _ _ hp_lt] at hj
          rcases List.mem_append.mp hj with hjold | hjnew
          · obtain ⟨hjlen, hjpar, hjlvl⟩ := hchild i hi' j hjold
            refine ⟨by rw [addChildAt_append_length]; omega, ?_, ?_⟩
            · rw [(getNodeD_update_fields s.nodes.length _ hp_lt hjlen).1]
              exact hjpar
            · rw [(getNodeD_update_fields s.nodes.length _ hp_lt hjlen).2.1,
                (getNodeD_update_fields s.nodes.length _ hp_lt hi').2.1]
              exact hjlvl
          · rcases List.mem_singleton.mp hjnew with rfl
            refine ⟨by rw [addChildAt_append_length]; omega, ?_, ?_⟩
            · rw [getNodeD_update_new]
            · rw [getNodeD_update_new,
                (getNodeD_update_fields s.nodes.length _ hp_lt hi').2.1]
              exact hhdlt
        · rw [getNodeD_update_ne _ _ hi' hip] at hj
          obtain ⟨hjlen, hjpar, hjlvl⟩ := hchild i hi' j hj
          refine ⟨by rw [addChildAt_append_length]; omega, ?_, ?_⟩
          · rw [(getNodeD_update_fields s.nodes.length _ hp_lt hjlen).1]
            exact hjpar
          · rw [(getNodeD_update_fields s.nodes.length _ hp_lt hjlen).2.1,
              (getNodeD_update_fields s.nodes.length _ hp_lt hi').2.1]
            exact hjlvl
    · -- stack non-empty
      exact List.cons_ne_nil _ _
    · -- stack bottom is the root
      rw [List.getLast?_cons_cons]
      obtain ⟨pre, hpre⟩ := hsuff
      rw [hsteq] at hpre
      rw [← hlast, ← hpre]
      exact (getLast?_append_right (hd :: tl) (List.cons_ne_nil hd tl) pre).symm
    · -- stack members in range
      intro x hx
      rw [addChildAt_append_length]
      rcases List.mem_cons.mp hx with h | h
      · omega
      · have : x ∈ s.stack := hsub x (by rw [hsteq]; exact h)
        have := hmemall x this
        omega
    · -- stack levels strictly decreasing top-first
      have hst1pair :
          (hd :: tl).Pairwise
            (fun a b => (getNodeD s.nodes b).level < (getNodeD s.nodes a).level) := by
        have h := hpair.sublist hsuff.sublist
        rw [hsteq] at h
        exact h
      refine List.Pairwise.cons ?_ ?_
      · intro b hb
        have hb_mem : b ∈ s.stack := hsub b (by rw [hsteq]; exact hb)
        have hb_lt : b < s.nodes.length := hmemall b hb_mem
        rw [getNodeD_update_new,
          (getNodeD_update_fields s.nodes.length _ hp_lt hb_lt).2.1]
        rcases List.mem_cons.mp hb with h | h
        · subst h
          exact hhdlt
        · exact lt_trans (List.rel_of_pairwise_cons hst1pair h) hhdlt
      · refine List.Pairwise.imp_of_mem ?_ hst1pair
        intro a b ha hb hab
        have ha_lt : a < s.nodes.length :=
          hmemall a (hsub a (by rw [hsteq]; exact ha))
        have hb_lt : b < s.nodes.length :=
          hmemall b (hsub b (by rw [hsteq]; exact hb))
        rw [(getNodeD_update_fields s.nodes.length _ hp_lt ha_lt).2.1,
          (getNodeD_update_fields s.nodes.length _ hp_lt hb_lt).2.1]
        exact hab

theorem parseInv_init : ParseInv initParseState := by
  refine ⟨⟨by decide, by decide, by decide, by decide⟩, ?_, by decide, by decide, ?_, ?_⟩
  · intro i hi j hj
    have hi0 : i = 0 := Nat.lt_one_iff.mp hi
    subst hi0
    cases hj
  · intro i hi
    rcases List.mem_singleton.mp hi with rfl
    decide
  · exact List.pairwise_singleton _ _

theorem parseTreeLines_inv (lines : List String) : ParseInv (parseTreeLines lines) := by
  rw [parseTreeLines]
  have hfold : ∀ (ls : List String) (s : ParseState),
      ParseInv s → ParseInv (ls.foldl parseStep s) := by
    intro ls
    induction ls with
    | nil => intro s hs; exact hs
    | cons l rest ih => intro s hs; exact ih _ (parseStep_inv s l hs)
  exact hfold lines initParseState parseInv_init

/-- C10: every arena built by the indentation parser satisfies the
structural invariant: the synthetic root is at index `0` with level
`-1` and no parent, every node listed among some node's children points
back to exactly that node through its `parent` reference, and every
child's stored level is strictly greater than its parent's. -/
theorem parse_tree_parent_consistency (lines : List String) :
    (0 < (parseTreeLines lines).nodes.length ∧
      (getNodeD (parseTreeLines lines).nodes 0).keyword = "ROOT" ∧
      (getNodeD (parseTreeLines lines).nodes 0).level = -1 ∧
      (getNodeD (parseTreeLines lines).nodes 0).parent = none) ∧
    ∀ i, i < (parseTreeLines lines).nodes.length →
      ∀ j ∈ (getNodeD (parseTreeLines lines).nodes i).children,
        j < (parseTreeLines lines).nodes.length ∧
        (getNodeD (parseTreeLines lines).nodes j).parent = some i ∧
        (getNodeD (parseTreeLines lines).nodes i).level <
          (getNodeD (parseTreeLines lines).nodes j).level := by
  obtain ⟨hroot, hchild, _⟩ := parseTreeLines_inv lines
  exact ⟨hroot, hchild⟩

theorem parse_tree_parent_consistency_witness :
    (getNodeD (parseTreeLines ["A", "    B"]).nodes 2).parent = some 1 := by
  have h := (parse_tree_parent_consistency ["A", "    B"]).2 1 (by decide) 2 (by decide)
  exact h.2.1

/-- C5: the pop loop realises "attach to the nearest strictly shallower
ancestor": whenever the bottom of the ancestor stack is strictly
shallower than the new line (always true of the synthetic root at depth
`-1`), popping while the top's depth is `≥` the new depth is exactly
dropping the ancestors of depth `≥` the new depth, however many levels
the dedent jumps; `build_keyword_tree` returns the synthetic root's
children; and on the four-line example `A / B / C / D` the parse yields
the single top-level node `A` with children `[B, D]` and `B` with the
single child `C`. -/
theorem keyword_tree_builder_correct (nodes : List PNode) (lvl : Int)
    (st : List Nat)
    (h : ∀ i, st.getLast? = some i → (getNodeD nodes i).level < lvl) :
    popWhile nodes lvl st =
      st.dropWhile (fun i => decide (lvl ≤ (getNodeD nodes i).level)) ∧
    (∀ content : String,
      build_keyword_tree (some content) =
        (getNodeD (parseTreeLines (pySplitlines content)).nodes 0).children ∧
      build_keyword_tree none = []) ∧
    (parseTreeLines ["A", "    B", "        C", "    D"]).nodes.map PNode.keyword =
      ["ROOT", "A", "B", "C", "D"] ∧
    (parseTreeLines ["A", "    B", "        C", "    D"]).nodes.map PNode.level =
      [-1, 0, 1, 2, 1] ∧
    (parseTreeLines ["A", "    B", "        C", "    D"]).nodes.map PNode.children =
      [[1], [2, 4], [3], [], []] ∧
    build_keyword_tree (some "A\n    B\n        C\n    D\n") = [1] := by
  exact ⟨popWhile_eq_dropWhile nodes lvl st h, fun content => ⟨rfl, rfl⟩,
    by decide, by decide, by decide, by decide⟩

theorem keyword_tree_builder_correct_witness :
    popWhile initParseState.nodes 0 [0] = [0] := by
  have h := (keyword_tree_builder_correct initParseState.nodes 0 [0]
    (by intro i hi; cases hi; decide)).1
  exact h.trans (by decide)

/-- C6: blank lines (empty after stripping trailing whitespace) are
skipped entirely — parsing a line list equals parsing its non-blank
sublist, so they cannot affect the depth of later lines — and every
non-blank line's depth is the floor of its leading-whitespace run
length divided by 4, so a 6-space indent is silently treated as depth
1 (rounded down, not rejected), as the concrete example shows. -/
theorem blank_skip_and_level_floor (lines : List String) (line : String) :
    parseTreeLines lines =
      parseTreeLines (lines.filter (fun l => pyRStrip l ≠ "")) ∧
    4 * lineLevel line ≤ leadingWs line ∧
    leadingWs line < 4 * (lineLevel line + 1) ∧
    (parseTreeLines ["A", "      B"]).nodes.map PNode.level = [-1, 0, 1] ∧
    (parseTreeLines ["A", "      B"]).nodes.map PNode.children = [[1], [2], []] := by
  refine ⟨foldl_parseStep_filter_blank lines initParseState, ?_, ?_, by decide, by decide⟩
  · have h := Nat.div_add_mod (leadingWs line) 4
    rw [lineLevel]
    omega
  · have h := Nat.div_add_mod (leadingWs line) 4
    have h2 := Nat.mod_lt (leadingWs line) (show 0 < 4 by norm_num)
    rw [lineLevel]
    omega

/-!
Lemmas about the memo synchronizer. -/

theorem buildNewMemos_map_text (ex : List CommandMemo) (aid : Int) :
    ∀ (cs : List String) (start : Int),
      (buildNewMemos ex aid start cs).map (fun m => m.command_text) = cs := by
  intro cs
  induction cs with
  | nil => intro start; rfl
  | cons c rest ih => intro start; simp [buildNewMemos, ih (start + 1)]

theorem buildNewMemos_length (ex : List CommandMemo) (aid : Int)
    (cs : List String) (start : Int) :
    (buildNewMemos ex aid start cs).length = cs.length := by
  have h := congrArg List.length (buildNewMemos_map_text ex aid cs start)
  simpa using h

theorem buildNewMemos_map_order (ex : List CommandMemo) (aid : Int) :
    ∀ (cs : List String) (start : Int),
      (buildNewMemos ex aid start cs).map (fun m => m.command_order) =
        (List.range cs.length).map (fun k : Nat => start + (k : Int)) := by
  intro cs
  induction cs with
  | nil => intro start; rfl
  | cons c rest ih =>
    intro start
    rw [List.length_cons, List.range_succ_eq_map, List.map_cons, List.map_map]
    simp only [buildNewMemos, List.map_cons]
    rw [ih (start + 1)]
    refine congrArg₂ List.cons (by simp) ?_
    refine List.map_congr_left ?_
    intro k _
    simp only [Function.comp_apply, Nat.succ_eq_add_one]
    push_cast
    ring

theorem buildNewMemos_get (ex : List CommandMemo) (aid : Int) :
    ∀ (cs : List String) (start : Int) (k : Nat) (hk : k < cs.length)
      (hk2 : k < (buildNewMemos ex aid start cs).length),
      (buildNewMemos ex aid start cs).get ⟨k, hk2⟩ =
        { action_id := aid
          command_order := start + (k : Int)
          command_text := cs.get ⟨k, hk⟩
          description :=
            ((memoLookup ex (start + (k : Int), cs.get ⟨k, hk⟩)).getD ("", "", "")).1
          memo_text :=
            ((memoLookup ex (start + (k : Int), cs.get ⟨k, hk⟩)).getD ("", "", "")).2.1
          onenote_link :=
            ((memoLookup ex (start + (k : Int), cs.get ⟨k, hk⟩)).getD ("", "", "")).2.2 } := by
  intro cs
  induction cs with
  | nil => intro start k hk; cases hk
  | cons c rest ih =>
    intro start k hk hk2
    cases k with
    | zero => simp [buildNewMemos]
    | succ k =>
      have hk' : k < rest.length := Nat.lt_of_succ_lt_succ hk
      have hk2' : k < (buildNewMemos ex aid (start + 1) rest).length := by
        rw [buildNewMemos_length]; exact hk'
      have h := ih (start + 1) k hk' hk2'
      simp only [buildNewMemos, List.get_cons_succ]
      rw [h]
      have harith : start + 1 + (k : Int) = start + ((k : Nat) + 1 : Nat) := by
        push_cast; ring
      simp [harith]

theorem memoLookupAux_append (key : Int × String) :
    ∀ (l₁ l₂ : List CommandMemo) (acc : Option (String × String × String)),
      memoLookupAux key acc (l₁ ++ l₂) = memoLookupAux key (memoLookupAux key acc l₁) l₂ := by
  intro l₁
  induction l₁ with
  | nil => intro l₂ acc; rfl
  | cons m ms ih => intro l₂ acc; rw [List.cons_append, memoLookupAux, memoLookupAux, ih]

theorem memoLookupAux_no_match (key : Int × String) :
    ∀ (l : List CommandMemo) (acc : Option (String × String × String)),
      (∀ m ∈ l, (m.command_order, m.command_text) ≠ key) →
      memoLookupAux key acc l = acc := by
  intro l
  induction l with
  | nil => intro acc _; rfl
  | cons m ms ih =>
    intro acc h
    rw [memoLookupAux, if_neg (h m (List.mem_cons_self m ms))]
    exact ih acc fun m' hm' => h m' (List.mem_cons_of_mem m hm')

theorem memoLookupAux_exists_match (key : Int × String) :
    ∀ l : List CommandMemo,
      (∃ m ∈ l, (m.command_order, m.command_text) = key) →
      ∃ m ∈ l, (m.command_order, m.command_text) = key ∧
        ∀ acc, memoLookupAux key acc l =
          some (m.description, m.memo_text, m.onenote_link) := by
  intro l
  induction l with
  | nil => rintro ⟨m, hm, _⟩; cases hm
  | cons m ms ih =>
    intro hex
    by_cases hrest : ∃ m' ∈ ms, (m'.command_order, m'.command_text) = key
    · obtain ⟨m', hm', hkey', hall⟩ := ih hrest
      refine ⟨m', List.mem_cons_of_mem m hm', hkey', ?_⟩
      intro acc
      rw [memoLookupAux]
      exact hall _
    · have hnone : ∀ m' ∈ ms, (m'.command_order, m'.command_text) ≠ key := by
        intro m' hm' hk
        exact hrest ⟨m', hm', hk⟩
      have hhead : (m.command_order, m.command_text) = key := by
        obtain ⟨m', hm', hk⟩ := hex
        rcases List.mem_cons.mp hm' with h | h
        · exact h ▸ hk
        · exact absurd hk (hnone m' h)
      refine ⟨m, List.mem_cons_self m ms, hhead, ?_⟩
      intro acc
      rw [memoLookupAux, if_pos hhead]
      exact memoLookupAux_no_match key ms _ hnone

theorem insertMemo_perm (m : CommandMemo) :
    ∀ l : List CommandMemo, List.Perm (insertMemo m l) (m :: l) := by
  intro l
  induction l with
  | nil => exact List.Perm.refl _
  | cons x xs ih =>
    rw [insertMemo]
    by_cases h : m.command_order ≤ x.command_order
    · rw [if_pos h]
    · rw [if_neg h]
      exact (List.Perm.cons x ih).trans (List.Perm.swap m x xs)

theorem sortMemos_perm : ∀ l : List CommandMemo, List.Perm (sortMemos l) l := by
  intro l
  induction l with
  | nil => exact List.Perm.refl _
  | cons m ms ih =>
    rw [sortMemos]
    exact (insertMemo_perm m (sortMemos ms)).trans (List.Perm.cons m ih)

theorem sortMemos_mem_iff (l : List CommandMemo) (m : CommandMemo) :
    m ∈ sortMemos l ↔ m ∈ l :=
  (sortMemos_perm l).mem_iff

theorem buildNewMemos_order_lb (ex : List CommandMemo) (aid : Int) :
    ∀ (cs : List String) (start : Int) (m : CommandMemo),
      m ∈ buildNewMemos ex aid start cs → start ≤ m.command_order := by
  intro cs
  induction cs with
  | nil => intro start m hm; cases hm
  | cons c rest ih =>
    intro start m hm
    rcases List.mem_cons.mp hm with h | h
    · subst h; exact le_refl _
    · exact le_trans (by omega) (ih (start + 1) m h)

theorem buildNewMemos_sorted (ex : List CommandMemo) (aid : Int) :
    ∀ (cs : List String) (start : Int),
      (buildNewMemos ex aid start cs).Pairwise
        (fun a b => a.command_order ≤ b.command_order) := by
  intro cs
  induction cs with
  | nil => intro start; exact List.Pairwise.nil
  | cons c rest ih =>
    intro start
    refine List.Pairwise.cons ?_ (ih (start + 1))
    intro b hb
    refine le_trans ?_ (buildNewMemos_order_lb ex aid rest (start + 1) b hb)
    change start ≤ start + 1
    omega

theorem sortMemos_eq_of_sorted :
    ∀ l : List CommandMemo,
      l.Pairwise (fun a b => a.command_order ≤ b.command_order) → sortMemos l = l := by
  intro l
  induction l with
  | nil => intro _; rfl
  | cons m ms ih =>
    intro h
    rw [sortMemos, ih (List.Pairwise.of_cons h)]
    cases ms with
    | nil => rfl
    | cons x xs =>
      rw [insertMemo, if_pos (List.rel_of_pairwise_cons h (List.mem_cons_self x xs))]

/-- Re-running the construction loop against a prior-annotation list
made of low-position garbage followed by the loop's own previous output
reproduces that output: position `start + k` finds exactly its own
previous record. -/
theorem buildNewMemos_stable (ex : List CommandMemo) (aid : Int) :
    ∀ (cs : List String) (start : Int) (P : List CommandMemo),
      (∀ m ∈ P, m.command_order < start) →
      buildNewMemos (P ++ buildNewMemos ex aid start cs) aid start cs =
        buildNewMemos ex aid start cs := by
  intro cs
  induction cs with
  | nil => intro start P _; rfl
  | cons c rest ih =>
    intro start P hP
    have hhead :
        memoLookup (P ++ buildNewMemos ex aid start (c :: rest)) (start, c) =
          some
            (((memoLookup ex (start, c)).getD ("", "", "")).1,
             ((memoLookup ex (start, c)).getD ("", "", "")).2.1,
             ((memoLookup ex (start, c)).getD ("", "", "")).2.2) := by
      rw [memoLookup, memoLookupAux_append]
      simp only [buildNewMemos]
      rw [memoLookupAux, if_pos rfl]
      refine memoLookupAux_no_match (start, c) _ _ ?_
      intro m hm hkey
      have h1 := buildNewMemos_order_lb ex aid rest (start + 1) m hm
      have h2 : m.command_order = start := congrArg Prod.fst hkey
      omega
    conv_lhs => rw [buildNewMemos]
    conv_rhs => rw [buildNewMemos]
    rw [hhead]
    refine congrArg₂ List.cons rfl ?_
    have hre :
        P ++ buildNewMemos ex aid start (c :: rest) =
          (P ++
            [{ action_id := aid, command_order := start, command_text := c,
               description := ((memoLookup ex (start, c)).getD ("", "", "")).1,
               memo_text := ((memoLookup ex (start, c)).getD ("", "", "")).2.1,
               onenote_link := ((memoLookup ex (start, c)).getD ("", "", "")).2.2 }]) ++
            buildNewMemos ex aid (start + 1) rest := by
      simp [buildNewMemos]
    rw [hre]
    refine ih (start + 1) _ ?_
    intro m hm
    rcases List.mem_append.mp hm with h | h
    · exact lt_trans (hP m h) (by omega)
    · rcases List.mem_singleton.mp h with rfl
      change start < start + 1
      omega

theorem memoLookup_sorted_found (l : List CommandMemo) (key : Int × String)
    (m : CommandMemo) (hm : m ∈ l) (hk : (m.command_order, m.command_text) = key)
    (huniq : ∀ m' ∈ l, (m'.command_order, m'.command_text) = key → m' = m) :
    memoLookup (sortMemos l) key = some (m.description, m.memo_text, m.onenote_link) := by
  obtain ⟨m', hm', hk', hall⟩ :=
    memoLookupAux_exists_match key (sortMemos l)
      ⟨m, (sortMemos_mem_iff l m).mpr hm, hk⟩
  have heq : m' = m := huniq m' ((sortMemos_mem_iff l m').mp hm') hk'
  rw [memoLookup, hall none, heq]

theorem memoLookup_sorted_none (l : List CommandMemo) (key : Int × String)
    (h : ∀ m ∈ l, (m.command_order, m.command_text) ≠ key) :
    memoLookup (sortMemos l) key = none := by
  refine memoLookupAux_no_match key (sortMemos l) none ?_
  intro m hm
  exact h m ((sortMemos_mem_iff l m).mp hm)

/-- Projections of the memo that `sync_memos` places at 0-based index
`i`: the payload is the dict lookup at key `(1 + i, i-th command)` over
the sorted prior list, defaulted to empty strings. -/
theorem sync_memos_get_payload (bundle : ActionBundle) (text : String) (i : Nat)
    (hi : i < (normalize_commands text).length)
    (hi2 : i < (sync_memos bundle text).memos.length) :
    ((sync_memos bundle text).memos.get ⟨i, hi2⟩).description =
      ((memoLookup (sortMemos bundle.memos)
        (1 + (i : Int), (normalize_commands text).get ⟨i, hi⟩)).getD ("", "", "")).1 ∧
    ((sync_memos bundle text).memos.get ⟨i, hi2⟩).memo_text =
      ((memoLookup (sortMemos bundle.memos)
        (1 + (i : Int), (normalize_commands text).get ⟨i, hi⟩)).getD ("", "", "")).2.1 ∧
    ((sync_memos bundle text).memos.get ⟨i, hi2⟩).onenote_link =
      ((memoLookup (sortMemos bundle.memos)
        (1 + (i : Int), (normalize_commands text).get ⟨i, hi⟩)).getD ("", "", "")).2.2 := by
  have hget := buildNewMemos_get (sortMemos bundle.memos) (bundle.id.getD 0)
    (normalize_commands text) 1 i hi hi2
  exact ⟨congrArg CommandMemo.description hget,
    congrArg CommandMemo.memo_text hget,
    congrArg CommandMemo.onenote_link hget⟩

/-- C2: for each 1-based position `i = k + 1`, if the prior annotation
list holds a (unique) memo keyed by `(i, i-th command)` then the new
annotation at that position carries its payload fields verbatim, and if
it holds no such memo the new annotation's payload fields are all
empty; the final conjunct shows the loss-on-shift consequence on the
spec's own scenario (insertion at the front resets every shifted
note). -/
theorem sync_memos_carry_over (bundle : ActionBundle) (text : String) (i : Nat)
    (hi : i < (normalize_commands text).length)
    (hi2 : i < (sync_memos bundle text).memos.length) :
    (∀ m ∈ bundle.memos,
      (m.command_order, m.command_text) =
        ((i : Int) + 1, (normalize_commands text).get ⟨i, hi⟩) →
      (∀ m' ∈ bundle.memos,
        (m'.command_order, m'.command_text) =
          ((i : Int) + 1, (normalize_commands text).get ⟨i, hi⟩) → m' = m) →
      ((sync_memos bundle text).memos.get ⟨i, hi2⟩).description = m.description ∧
      ((sync_memos bundle text).memos.get ⟨i, hi2⟩).memo_text = m.memo_text ∧
      ((sync_memos bundle text).memos.get ⟨i, hi2⟩).onenote_link = m.onenote_link) ∧
    ((∀ m ∈ bundle.memos,
      (m.command_order, m.command_text) ≠
        ((i : Int) + 1, (normalize_commands text).get ⟨i, hi⟩)) →
      ((sync_memos bundle text).memos.get ⟨i, hi2⟩).description = "" ∧
      ((sync_memos bundle text).memos.get ⟨i, hi2⟩).memo_text = "" ∧
      ((sync_memos bundle text).memos.get ⟨i, hi2⟩).onenote_link = "") ∧
    (sync_memos
      { id := some 1,
        memos := [{ action_id := 1, command_order := 2, command_text := "b",
                    memo_text := "keep" }] } "x\na\nb").memos.map
      (fun m => m.memo_text) = ["", "", ""] := by
  have hpayload := sync_memos_get_payload bundle text i hi hi2
  have hkey : ((i : Int) + 1, (normalize_commands text).get ⟨i, hi⟩) =
      (1 + (i : Int), (normalize_commands text).get ⟨i, hi⟩) := by
    rw [add_comm]
  refine ⟨?_, ?_, by decide⟩
  · intro m hm hk huniq
    have hfound := memoLookup_sorted_found bundle.memos _ m hm (hk.trans hkey)
      (fun m' hm' hk' => huniq m' hm' (hk'.trans hkey.symm))
    rw [hpayload.1, hpayload.2.1, hpayload.2.2, hfound]
    exact ⟨rfl, rfl, rfl⟩
  · intro hnone
    have hlook := memoLookup_sorted_none bundle.memos _
      (fun m hm => hkey ▸ hnone m hm)
    rw [hpayload.1, hpayload.2.1, hpayload.2.2, hlook]
    exact ⟨rfl, rfl, rfl⟩

theorem sync_memos_carry_over_witness :
    ((sync_memos
      { id := some 1,
        memos := [{ action_id := 1, command_order := 2, command_text := "b",
                    memo_text := "keep" }] } "a\nb\nc").memos.get
      ⟨1, by decide⟩).memo_text = "keep" := by
  have h := (sync_memos_carry_over
    { id := some 1,
      memos := [{ action_id := 1, command_order := 2, command_text := "b",
                  memo_text := "keep" }] } "a\nb\nc" 1 (by decide) (by decide)).1
    { action_id := 1, command_order := 2, command_text := "b", memo_text := "keep" }
    (by decide) (by decide) (by decide)
  exact h.2.1

/-- C1: after every call to `sync_memos`, the bundle carries exactly
one memo per non-empty trimmed command line — the memo texts are
exactly `normalize_commands` of the given text — and the
`command_order` values are exactly `1..N` in increasing order with no
gaps. -/
theorem sync_memos_positions (bundle : ActionBundle) (text : String) :
    (sync_memos bundle text).memos.length = (normalize_commands text).length ∧
    (sync_memos bundle text).memos.map (fun m => m.command_text) =
      normalize_commands text ∧
    (sync_memos bundle text).memos.map (fun m => m.command_order) =
      (List.range (normalize_commands text).length).map (fun k : Nat => (k : Int) + 1) := by
  refine ⟨?_, ?_, ?_⟩
  · exact buildNewMemos_length _ _ _ _
  · exact buildNewMemos_map_text _ _ _ _
  · rw [show (sync_memos bundle text).memos =
        buildNewMemos (sortMemos bundle.memos) (bundle.id.getD 0) 1
          (normalize_commands text) from rfl]
    rw [buildNewMemos_map_order]
    refine List.map_congr_left ?_
    intro k _
    ring

/-- C3: `sync_memos` is idempotent — a second run with the same
command text leaves the annotation list (indeed the whole bundle)
unchanged. -/
theorem sync_memos_idempotent (bundle : ActionBundle) (text : String) :
    sync_memos (sync_memos bundle text) text = sync_memos bundle text := by
  have hsort :
      sortMemos (buildNewMemos (sortMemos bundle.memos) (bundle.id.getD 0) 1
          (normalize_commands text)) =
        buildNewMemos (sortMemos bundle.memos) (bundle.id.getD 0) 1
          (normalize_commands text) :=
    sortMemos_eq_of_sorted _ (buildNewMemos_sorted _ _ _ _)
  have hstable :=
    buildNewMemos_stable (sortMemos bundle.memos) (bundle.id.getD 0)
      (normalize_commands text) 1 [] (by intro m hm; cases hm)
  rw [List.nil_append] at hstable
  simp only [sync_memos]
  rw [hsort, hstable]
